import Mathlib

/-!
Shallow embedding of the talos-node-discovery core (Go): the address
enumerator (probe.IpsFromCIDR / probe.IpsFromCidrs with nextIP), the bounded
reachability prober (main.dialTalosHosts), and the membership reconciler
(the loop over talosHostsInCidr in main, plus talos.extractInternalIP).

Addresses are modelled numerically: an IPv4 address is a Nat below 2^32
(the Go code renders them back to dotted-quad strings with ip.String(),
a bijection on four-byte addresses).  Machine bytes are Nat with explicit
mod 256; the 32-bit address space is Nat with explicit mod 2^32.
Only the IPv4 family is modelled: every range and address the spec's claims
quantify over is IPv4-style, and Go's To4() test is modelled as the
dotted-quad parse (IPv4-mapped IPv6 literals, which Go's To4 also accepts,
are outside the IPv4-style scope of the claims).
-/

/-- Splits a character list on every occurrence of the separator, keeping
empty pieces, as Go's strings.Split does for a one-character separator. -/
def splitOnChar (sep : Char) : List Char → List (List Char)
  | [] => [[]]
  | c :: rest =>
    match splitOnChar sep rest with
    | [] => if c = sep then [[], [c]] else [[c]]
    | g :: gs => if c = sep then [] :: g :: gs else (c :: g) :: gs

/-- Decimal value accumulated over a digit list, as Go's field parsing does. -/
def digitsVal (cs : List Char) : Nat :=
  cs.foldl (fun a c => a * 10 + (c.toNat - 48)) 0

/-- One dotted-quad field, following Go's net.ParseIP rules for an IPv4
octet (Go 1.17 and later): nonempty, decimal digits only, at most three
digits, no leading zero on a multi-digit field, value at most 255. -/
def parseV4Field (cs : List Char) : Option Nat :=
  if cs = [] then none
  else if !(cs.all Char.isDigit) then none
  else if 3 < cs.length then none
  else if 1 < cs.length && cs.head? == some '0' then none
  else if 255 < digitsVal cs then none
  else some (digitsVal cs)

/-- Dotted-quad IPv4 parse (the v4 branch of Go's net.ParseIP): exactly four
fields separated by dots, each a valid octet; the value is the big-endian
32-bit number of the four octets. -/
def parseIPv4Chars (cs : List Char) : Option Nat :=
  match splitOnChar '.' cs with
  | [p1, p2, p3, p4] =>
    match parseV4Field p1, parseV4Field p2, parseV4Field p3, parseV4Field p4 with
    | some a, some b, some c, some d => some (((a * 256 + b) * 256 + c) * 256 + d)
    | _, _, _, _ => none
  | _ => none

/-- Models the validity check of the reconciler and of extractInternalIP:
in Go, net.ParseIP(s) succeeds and its To4() is non-nil.  For IPv4-style
strings this is exactly the dotted-quad parse. -/
def isIPv4 (s : String) : Bool := (parseIPv4Chars s.toList).isSome

/-- A parsed IPv4 CIDR as Go's net.ParseCIDR returns it: the network
address (the given address with the host bits masked off) and the number
of leading one bits of the mask. -/
structure IPNet where
  network : Nat
  ones : Nat
deriving DecidableEq, Repr

/-- Masking an address with a prefix of the given length: clears the low
32 - ones bits, as ip.Mask(mask) does on a four-byte address. -/
def maskAddr (a ones : Nat) : Nat := a - a % 2 ^ (32 - ones)

/-- Go's net.ParseCIDR restricted to the IPv4 family: an address part in
dotted-quad form, a slash, and a decimal prefix length of at most 32.
Returns the network (address masked) and the prefix length. -/
def parseCIDR (cs : List Char) : Option IPNet :=
  match splitOnChar '/' cs with
  | [addrPart, maskPart] =>
    match parseIPv4Chars addrPart with
    | none => none
    | some addr =>
      if maskPart = [] then none
      else if !(maskPart.all Char.isDigit) then none
      else if 32 < digitsVal maskPart then none
      else some ⟨maskAddr addr (digitsVal maskPart), digitsVal maskPart⟩
  | _ => none

/-- Go's ipnet.Contains on a four-byte address: the address masked with the
network mask equals the network address. -/
def IPNet.contains (net : IPNet) (ip : Nat) : Bool :=
  maskAddr ip net.ones == net.network

/-- Little-endian ripple increment over a byte list: models the loop body
of probe.nextIP, which increments the last byte and propagates the carry
toward the first, run here on the reversed list. -/
def nextIPAux : List Nat → List Nat
  | [] => []
  | b :: rest => if (b + 1) % 256 = 0 then 0 :: nextIPAux rest else ((b + 1) % 256) :: rest

/-- probe.nextIP: big-endian byte list incremented from the last byte with
carry propagation through the higher-order bytes, wrapping at the width. -/
def nextIP (ip : List Nat) : List Nat := (nextIPAux ip.reverse).reverse

/-- Little-endian numeric value of a byte list. -/
def bytesToNat : List Nat → Nat
  | [] => 0
  | b :: rest => b + 256 * bytesToNat rest

/-- Big-endian numeric value of a byte list (the number an IP represents). -/
def ipValue (ip : List Nat) : Nat := bytesToNat ip.reverse

/-- The loop of IpsFromCIDR at the numeric level: starting from an address,
collect addresses while ipnet.Contains holds, stepping by nextIP, which on a
four-byte address is plus one mod 2^32 (theorem nextIP_value below).  The
fuel argument only bounds the number of iterations modelled: since the
address state space has 2^32 elements and the step cycles through all of
them, fuel 2^32 is enough to reach the guard failure whenever the Go loop
terminates; none reports that the fuel was exhausted with the guard still
true, which with fuel 2^32 happens exactly when the Go loop never exits. -/
def enumFrom (net : IPNet) : Nat → Nat → Option (List Nat)
  | 0, ip => if net.contains ip then none else some []
  | fuel + 1, ip =>
    if net.contains ip then (enumFrom net fuel ((ip + 1) % 2 ^ 32)).map (ip :: ·)
    else some []

/-- Outcome of an enumeration call: the address list, a parse error
(Go returns nil and the net.ParseCIDR error), or nontermination of the
generation loop. -/
inductive EnumResult where
  | ok (ips : List Nat)
  | parseError (msg : String)
  | diverges
deriving DecidableEq, Repr

/-- Body of probe.IpsFromCIDR on a single range: parse the CIDR, generate
from the masked network address while Contains holds, and for an IPv4 range
with more than two generated addresses drop the first and last (network and
broadcast). -/
def ipsFromCIDRChars (cs : List Char) : EnumResult :=
  match parseCIDR cs with
  | none => .parseError ("invalid CIDR address: " ++ String.mk cs)
  | some net =>
    match enumFrom net (2 ^ 32) net.network with
    | none => .diverges
    | some ips => .ok (if 2 < ips.length then (ips.drop 1).dropLast else ips)

/-- probe.IpsFromCIDR. -/
def IpsFromCIDR (s : String) : EnumResult := ipsFromCIDRChars s.toList

/-- The loop of probe.IpsFromCidrs over the comma-separated parts: each part
is parsed and enumerated exactly as in IpsFromCIDR, the per-range outputs
are appended in input order, and the first parse failure aborts the whole
call with that range's error and no partial output. -/
def ipsFromCidrsChars : List (List Char) → EnumResult
  | [] => .ok []
  | c :: rest =>
    match parseCIDR c with
    | none => .parseError ("invalid CIDR address: " ++ String.mk c)
    | some net =>
      match enumFrom net (2 ^ 32) net.network with
      | none => .diverges
      | some ips =>
        let ips' := if 2 < ips.length then (ips.drop 1).dropLast else ips
        match ipsFromCidrsChars rest with
        | .ok restIps => .ok (ips' ++ restIps)
        | e => e

/-- probe.IpsFromCidrs: split the input on commas and process each range. -/
def IpsFromCidrs (s : String) : EnumResult :=
  ipsFromCidrsChars (splitOnChar ',' s.toList)

/-- talos.Member: a Talos cluster member record.  The Go field Namespace is
nspace and Type is kind here (both are Lean keywords); every field is kept
even though the reconciler reads only internalIP. -/
structure Member where
  node : String
  nspace : String
  kind : String
  id : String
  version : String
  hostname : String
  machineType : String
  os : String
  addresses : List String
  internalIP : String
deriving DecidableEq, Repr

/-- talos.extractInternalIP: the first address of the list that passes the
ParseIP-and-To4 check; if none does but the list is nonempty, its first
address; for an empty list, the empty string. -/
def extractInternalIP (addresses : List String) : String :=
  match addresses.find? isIPv4 with
  | some a => a
  | none =>
    match addresses with
    | a :: _ => a
    | [] => ""

/-- One iteration of the reconciling loop in main over talosHostsInCidr:
skip a host already in the accumulated output, skip a host failing the
ParseIP-and-To4 check, skip a host equal to some member's InternalIP field,
and otherwise append it. -/
def reconcileStep (members : List Member) (acc : List String) (host : String) : List String :=
  if acc.contains host then acc
  else if !(isIPv4 host) then acc
  else if members.any (fun m => m.internalIP == host) then acc
  else acc ++ [host]

/-- The membership reconciler: the loop in main that builds newMemberIps
from the reachable hosts and the member list. -/
def reconcile (reachable : List String) (members : List Member) : List String :=
  reachable.foldl (reconcileStep members) []

/-- The condition under which the reconciling loop keeps a host that is not
yet in the output: it passes the ParseIP-and-To4 check and matches no
member's InternalIP field. -/
def keepHost (members : List Member) (host : String) : Bool :=
  isIPv4 host && !(members.any (fun m => m.internalIP == host))

/-- Result of main.dialTalosHosts: either the process dies through
log.Fatal with a message, or the function returns its host list and error
value (none models a nil Go error). -/
inductive DialResult where
  | fatal (msg : String)
  | ok (hosts : List String) (err : Option String)
deriving DecidableEq, Repr

/-- The batch loop of main.dialTalosHosts: take a batch of at most b
addresses, run one probe attempt per address keeping the reachable ones,
and continue with the rest once the whole batch has drained.  The oracle
abstracts probe.DialAddress on the address and fixed port within the fixed
timeout; appends within a batch happen in some interleaving under the
mutex, modelled by the input-order linearization, which the set-level
claims do not distinguish.  The fuel only bounds the modelled iterations;
the input length is enough fuel for every batch size of at least one. -/
def probeLoop (oracle : String → Bool) (b : Nat) : Nat → List String → List String
  | _, [] => []
  | 0, _ :: _ => []
  | fuel + 1, ip :: rest =>
    ((ip :: rest).take b).filter oracle ++ probeLoop oracle b fuel ((ip :: rest).drop b)

/-- main.dialTalosHosts: a batch size that is nonpositive and not the -1
sentinel hits log.Fatal with a fixed message; the -1 sentinel selects the
default batch size 100; otherwise the addresses are probed in consecutive
batches of at most the batch size and the function returns the reachable
hosts with a nil error. -/
def dialTalosHosts (oracle : String → Bool) (ips : List String) (batchSize : Int) : DialResult :=
  if batchSize ≤ 0 ∧ batchSize ≠ -1 then
    .fatal "batch size cannot be less than or equal to 0"
  else
    let b : Nat := if batchSize = -1 then 100 else batchSize.toNat
    .ok (probeLoop oracle b ips.length ips) none

lemma bytesToNat_lt (bs : List Nat) (h : ∀ b ∈ bs, b < 256) :
    bytesToNat bs < 256 ^ bs.length := by
  induction bs with
  | nil => simp [bytesToNat]
  | cons b rest ih =>
    have hb : b < 256 := h b (List.mem_cons_self b rest)
    have ht := ih (fun x hx => h x (List.mem_cons_of_mem b hx))
    simp only [bytesToNat, List.length_cons, pow_succ]
    omega

lemma nextIPAux_value (bs : List Nat) (h : ∀ b ∈ bs, b < 256) :
    bytesToNat (nextIPAux bs) = (bytesToNat bs + 1) % 256 ^ bs.length := by
  induction bs with
  | nil => simp [nextIPAux, bytesToNat]
  | cons b rest ih =>
    have hb : b < 256 := h b (List.mem_cons_self b rest)
    have hrest : ∀ x ∈ rest, x < 256 := fun x hx => h x (List.mem_cons_of_mem b hx)
    by_cases hc : (b + 1) % 256 = 0
    · have hb255 : b = 255 := by omega
      subst hb255
      simp only [nextIPAux, hc, if_pos, bytesToNat, ih hrest, List.length_cons]
      have harg : 255 + 256 * bytesToNat rest + 1 = 256 * (bytesToNat rest + 1) := by ring
      rw [harg, pow_succ', Nat.mul_mod_mul_left]
      ring
    · have hlt : b + 1 < 256 := by omega
      have hbc : (b + 1) % 256 = b + 1 := Nat.mod_eq_of_lt hlt
      simp only [nextIPAux, hc, if_neg, bytesToNat, hbc, List.length_cons]
      have ht := bytesToNat_lt rest hrest
      rw [Nat.mod_eq_of_lt]
      · ring
      · rw [pow_succ]; omega

/-- probe.nextIP computes the successor of the address value modulo the full
address width: the ripple increment across the bytes is plus one with
wraparound.  For a four-byte IPv4 address the modulus is 256^4 = 2^32,
which justifies the numeric step used by enumFrom. -/
theorem nextIP_value (ip : List Nat) (h : ∀ b ∈ ip, b < 256) :
    ipValue (nextIP ip) = (ipValue ip + 1) % 256 ^ ip.length := by
  unfold ipValue nextIP
  rw [List.reverse_reverse, nextIPAux_value ip.reverse (by simpa using h)]
  simp

lemma parseV4Field_le {cs : List Char} {v : Nat} (h : parseV4Field cs = some v) :
    v ≤ 255 := by
  unfold parseV4Field at h
  repeat' split at h
  all_goals simp_all

lemma parseIPv4Chars_lt {cs : List Char} {a : Nat} (h : parseIPv4Chars cs = some a) :
    a < 2 ^ 32 := by
  unfold parseIPv4Chars at h
  split at h
  · split at h
    · rename_i p1 p2 p3 p4 _ o1 o2 o3 o4 h1 h2 h3 h4
      have b1 := parseV4Field_le h1
      have b2 := parseV4Field_le h2
      have b3 := parseV4Field_le h3
      have b4 := parseV4Field_le h4
      injection h with h
      omega
    · exact absurd h (by simp)
  · exact absurd h (by simp)

lemma maskAddr_le (a n : Nat) : maskAddr a n ≤ a := Nat.sub_le _ _

lemma maskAddr_mod (a n : Nat) : maskAddr a n % 2 ^ (32 - n) = 0 := by
  unfold maskAddr
  have h := Nat.div_add_mod a (2 ^ (32 - n))
  have h2 : a - a % 2 ^ (32 - n) = 2 ^ (32 - n) * (a / 2 ^ (32 - n)) := by omega
  rw [h2, Nat.mul_mod_right]

lemma parseCIDR_wf {cs : List Char} {net : IPNet} (h : parseCIDR cs = some net) :
    net.ones ≤ 32 ∧ net.network < 2 ^ 32 ∧ net.network % 2 ^ (32 - net.ones) = 0 := by
  unfold parseCIDR at h
  repeat' split at h
  all_goals cases h
  rename_i addrPart maskPart addr haddr hne hdig hones
  dsimp only
  refine ⟨by omega, ?_, maskAddr_mod _ _⟩
  exact lt_of_le_of_lt (maskAddr_le _ _) (parseIPv4Chars_lt haddr)

lemma contains_of_lt_size (n network k : Nat) (hmask : network % 2 ^ (32 - n) = 0)
    (hk : k < 2 ^ (32 - n)) : IPNet.contains ⟨network, n⟩ (network + k) = true := by
  unfold IPNet.contains maskAddr
  dsimp only
  rw [Nat.add_mod, hmask, Nat.mod_eq_of_lt hk, Nat.zero_add, Nat.mod_eq_of_lt hk]
  simp

lemma network_add_size_le (n network : Nat) (hlt : network < 2 ^ 32) (hn32 : n ≤ 32)
    (hmask : network % 2 ^ (32 - n) = 0) : network + 2 ^ (32 - n) ≤ 2 ^ 32 := by
  obtain ⟨a, ha⟩ := Nat.dvd_of_mod_eq_zero hmask
  obtain ⟨b, hb⟩ := pow_dvd_pow 2 (show 32 - n ≤ 32 by omega)
  have hab : a < b := by
    by_contra hcon
    push_neg at hcon
    rw [ha, hb] at hlt
    exact absurd (Nat.mul_le_mul_left (2 ^ (32 - n)) hcon) (by omega)
  calc network + 2 ^ (32 - n) = 2 ^ (32 - n) * (a + 1) := by rw [ha]; ring
    _ ≤ 2 ^ (32 - n) * b := Nat.mul_le_mul_left _ hab
    _ = 2 ^ 32 := hb.symm

lemma contains_at_size (n network : Nat) (hn1 : 1 ≤ n) (hn32 : n ≤ 32)
    (hlt : network < 2 ^ 32) (hmask : network % 2 ^ (32 - n) = 0) :
    IPNet.contains ⟨network, n⟩ ((network + 2 ^ (32 - n)) % 2 ^ 32) = false := by
  have hble := network_add_size_le n network hlt hn32 hmask
  have hm : 0 < 2 ^ (32 - n) := pow_pos (by norm_num) _
  have hmlt : 2 ^ (32 - n) < 2 ^ 32 :=
    Nat.pow_lt_pow_right (by norm_num) (by omega)
  rcases Nat.lt_or_ge (network + 2 ^ (32 - n)) (2 ^ 32) with hcase | hcase
  · rw [Nat.mod_eq_of_lt hcase]
    unfold IPNet.contains maskAddr
    dsimp only
    have h1 : (network + 2 ^ (32 - n)) % 2 ^ (32 - n) = 0 := by
      rw [Nat.add_mod, hmask, Nat.zero_add, Nat.mod_self, Nat.zero_mod]
    rw [h1, Nat.sub_zero]
    exact beq_eq_false_iff_ne.mpr (by omega)
  · have heq : network + 2 ^ (32 - n) = 2 ^ 32 := le_antisymm hble hcase
    rw [heq, Nat.mod_self]
    unfold IPNet.contains maskAddr
    dsimp only
    rw [Nat.zero_mod, Nat.sub_zero]
    exact beq_eq_false_iff_ne.mpr (by omega)

lemma enumFrom_closed (n network : Nat) (hn1 : 1 ≤ n) (hn32 : n ≤ 32)
    (hlt : network < 2 ^ 32) (hmask : network % 2 ^ (32 - n) = 0) :
    ∀ fuel k, k ≤ 2 ^ (32 - n) → 2 ^ (32 - n) - k ≤ fuel →
      enumFrom ⟨network, n⟩ fuel ((network + k) % 2 ^ 32) =
        some ((List.range (2 ^ (32 - n) - k)).map (fun i => network + k + i)) := by
  have hble := network_add_size_le n network hlt hn32 hmask
  intro fuel
  induction fuel with
  | zero =>
    intro k hk hfuel
    have hks : k = 2 ^ (32 - n) := by omega
    subst hks
    unfold enumFrom
    rw [contains_at_size n network hn1 hn32 hlt hmask]
    simp
  | succ f ih =>
    intro k hk hfuel
    by_cases hks : k = 2 ^ (32 - n)
    · subst hks
      unfold enumFrom
      rw [contains_at_size n network hn1 hn32 hlt hmask]
      simp
    · have hklt : k < 2 ^ (32 - n) := lt_of_le_of_ne hk hks
      have hip : network + k < 2 ^ 32 := by omega
      rw [Nat.mod_eq_of_lt hip]
      unfold enumFrom
      rw [contains_of_lt_size n network k hmask hklt, if_pos rfl]
      have harg : network + k + 1 = network + (k + 1) := by ring
      rw [harg, ih (k + 1) (by omega) (by omega)]
      simp only [Option.map_some']
      congr 1
      have hmk : 2 ^ (32 - n) - k = (2 ^ (32 - n) - (k + 1)) + 1 := by omega
      rw [hmk, List.range_succ_eq_map, List.map_cons, List.map_map]
      congr 1
      apply List.map_congr_left
      intro a _
      simp only [Function.comp_apply, Nat.succ_eq_add_one]
      ring

lemma enumFrom_network (net : IPNet) (hn1 : 1 ≤ net.ones) (hn32 : net.ones ≤ 32)
    (hlt : net.network < 2 ^ 32) (hmask : net.network % 2 ^ (32 - net.ones) = 0) :
    enumFrom net (2 ^ 32) net.network =
      some ((List.range (2 ^ (32 - net.ones))).map (fun i => net.network + i)) := by
  obtain ⟨network, n⟩ := net
  dsimp only at hn1 hn32 hlt hmask ⊢
  have hsz : 2 ^ (32 - n) ≤ 2 ^ 32 := Nat.pow_le_pow_right (by norm_num) (by omega)
  have h := enumFrom_closed n network hn1 hn32 hlt hmask (2 ^ 32) 0 (Nat.zero_le _) (by omega)
  rw [Nat.add_zero, Nat.mod_eq_of_lt hlt] at h
  simpa using h

lemma contains_ones_zero (ip : Nat) (h : ip < 2 ^ 32) :
    IPNet.contains ⟨0, 0⟩ ip = true := by
  unfold IPNet.contains maskAddr
  dsimp only
  rw [Nat.sub_zero, Nat.mod_eq_of_lt h]
  simp

lemma enumFrom_ones_zero (fuel : Nat) : ∀ ip, ip < 2 ^ 32 →
    enumFrom ⟨0, 0⟩ fuel ip = none := by
  induction fuel with
  | zero =>
    intro ip h
    unfold enumFrom
    rw [contains_ones_zero ip h]
    simp
  | succ f ih =>
    intro ip h
    unfold enumFrom
    rw [contains_ones_zero ip h, if_pos rfl,
      ih ((ip + 1) % 2 ^ 32) (Nat.mod_lt _ (by norm_num))]
    simp

lemma drop_dropLast_map_range (s network : Nat) (hs : 2 < s) :
    ((((List.range s).map (fun i => network + i)).drop 1).dropLast) =
      (List.range (s - 2)).map (fun i => network + 1 + i) := by
  obtain ⟨u, rfl⟩ : ∃ u, s = u + 2 := ⟨s - 2, by omega⟩
  simp only [Nat.add_sub_cancel]
  rw [show u + 2 = (u + 1) + 1 by ring, List.range_succ_eq_map, List.map_cons,
    List.drop_succ_cons, List.drop_zero, List.map_map, List.range_succ, List.map_append]
  simp only [List.map_cons, List.map_nil, List.dropLast_concat]
  apply List.map_congr_left
  intro a _
  simp only [Function.comp_apply, Nat.succ_eq_add_one]
  ring

/-- Per-range output of the enumerator in closed form, for a range whose
generation loop terminates (a nonzero prefix length): the generated
sequence is the 2^(32-ones) consecutive addresses from the network address,
with the first and last dropped exactly when there are more than two. -/
lemma ipsFromCIDRChars_ok (cs : List Char) (net : IPNet)
    (hp : parseCIDR cs = some net) (hn1 : 1 ≤ net.ones) :
    ipsFromCIDRChars cs =
      .ok (if 2 < 2 ^ (32 - net.ones)
           then (List.range (2 ^ (32 - net.ones) - 2)).map (fun i => net.network + 1 + i)
           else (List.range (2 ^ (32 - net.ones))).map (fun i => net.network + i)) := by
  obtain ⟨hn32, hlt, hmask⟩ := parseCIDR_wf hp
  unfold ipsFromCIDRChars
  rw [hp]
  dsimp only
  rw [enumFrom_network net hn1 hn32 hlt hmask]
  simp only [List.length_map, List.length_range]
  by_cases hsz : 2 < 2 ^ (32 - net.ones)
  · rw [if_pos hsz, if_pos hsz, drop_dropLast_map_range _ _ hsz]
  · rw [if_neg hsz, if_neg hsz]

lemma contains_iff_mem {l : List String} {a : String} : l.contains a = true ↔ a ∈ l := by
  simp [List.contains, List.elem_iff]

lemma reconcileStep_eq (members : List Member) (acc : List String) (host : String) :
    reconcileStep members acc host =
      if host ∈ acc then acc
      else if keepHost members host then acc ++ [host] else acc := by
  unfold reconcileStep keepHost
  by_cases hmem : host ∈ acc
  · rw [if_pos (contains_iff_mem.mpr hmem), if_pos hmem]
  · rw [if_neg (by rw [contains_iff_mem]; exact hmem), if_neg hmem]
    by_cases hip : isIPv4 host
    · rw [if_neg (by simp [hip])]
      by_cases hany : members.any (fun m => m.internalIP == host)
      · rw [if_pos hany, if_neg (by simp [hip, hany])]
      · rw [if_neg hany, if_pos (by simp [hip, hany])]
    · rw [if_pos (by simpa using hip), if_neg (by simp [hip])]

lemma reconcile_fold_mem (members : List Member) :
    ∀ (l acc : List String) (x : String),
      x ∈ l.foldl (reconcileStep members) acc ↔
        x ∈ acc ∨ (x ∈ l ∧ keepHost members x = true) := by
  intro l
  induction l with
  | nil => simp
  | cons h t ih =>
    intro acc x
    rw [List.foldl_cons, ih]
    rw [reconcileStep_eq]
    by_cases hmem : h ∈ acc
    · rw [if_pos hmem]
      constructor
      · rintro (hx | hx)
        · exact Or.inl hx
        · exact Or.inr ⟨List.mem_cons_of_mem h hx.1, hx.2⟩
      · rintro (hx | ⟨hx1, hx2⟩)
        · exact Or.inl hx
        · rcases List.mem_cons.mp hx1 with rfl | hx1
          · exact Or.inl hmem
          · exact Or.inr ⟨hx1, hx2⟩
    · rw [if_neg hmem]
      by_cases hkeep : keepHost members h
      · rw [if_pos hkeep]
        constructor
        · rintro (hx | hx)
          · rcases List.mem_append.mp hx with hx | hx
            · exact Or.inl hx
            · rcases List.mem_singleton.mp hx with rfl
              exact Or.inr ⟨List.mem_cons_self _ _, hkeep⟩
          · exact Or.inr ⟨List.mem_cons_of_mem h hx.1, hx.2⟩
        · rintro (hx | ⟨hx1, hx2⟩)
          · exact Or.inl (List.mem_append.mpr (Or.inl hx))
          · rcases List.mem_cons.mp hx1 with rfl | hx1
            · exact Or.inl (List.mem_append.mpr (Or.inr (List.mem_singleton.mpr rfl)))
            · exact Or.inr ⟨hx1, hx2⟩
      · rw [if_neg hkeep]
        constructor
        · rintro (hx | hx)
          · exact Or.inl hx
          · exact Or.inr ⟨List.mem_cons_of_mem h hx.1, hx.2⟩
        · rintro (hx | ⟨hx1, hx2⟩)
          · exact Or.inl hx
          · rcases List.mem_cons.mp hx1 with rfl | hx1
            · exact absurd hx2 hkeep
            · exact Or.inr ⟨hx1, hx2⟩

lemma reconcile_fold_append (members : List Member) :
    ∀ (l acc : List String),
      ∃ ex, l.foldl (reconcileStep members) acc = acc ++ ex ∧ ex.Sublist l ∧
        (acc.Nodup → (acc ++ ex).Nodup) := by
  intro l
  induction l with
  | nil => exact fun acc => ⟨[], by simp⟩
  | cons h t ih =>
    intro acc
    rw [List.foldl_cons, reconcileStep_eq]
    by_cases hmem : h ∈ acc
    · rw [if_pos hmem]
      obtain ⟨ex, heq, hsub, hnd⟩ := ih acc
      exact ⟨ex, heq, hsub.cons h, hnd⟩
    · rw [if_neg hmem]
      by_cases hkeep : keepHost members h
      · rw [if_pos hkeep]
        obtain ⟨ex, heq, hsub, hnd⟩ := ih (acc ++ [h])
        refine ⟨h :: ex, ?_, hsub.cons₂ h, ?_⟩
        · rw [heq, List.append_assoc]
          rfl
        · intro hacc
          have : (acc ++ [h]).Nodup := by
            rw [List.nodup_append]
            exact ⟨hacc, List.nodup_singleton h, by simpa using hmem⟩
          have h2 := hnd this
          rwa [List.append_assoc] at h2
      · rw [if_neg hkeep]
        obtain ⟨ex, heq, hsub, hnd⟩ := ih acc
        exact ⟨ex, heq, hsub.cons h, hnd⟩

lemma reconcile_fold_fixed (members : List Member) :
    ∀ (l acc : List String), (acc ++ l).Nodup →
      (∀ x ∈ l, keepHost members x = true) →
      l.foldl (reconcileStep members) acc = acc ++ l := by
  intro l
  induction l with
  | nil => simp
  | cons h t ih =>
    intro acc hnd hall
    rw [List.foldl_cons, reconcileStep_eq]
    have hmem : h ∉ acc := by
      intro hcon
      exact (List.nodup_append.mp hnd).2.2 hcon (List.mem_cons_self _ _)
    rw [if_neg hmem, if_pos (hall h (List.mem_cons_self _ _))]
    have heq : acc ++ [h] ++ t = acc ++ h :: t := by
      rw [List.append_assoc]
      rfl
    rw [ih (acc ++ [h]) (by rwa [heq]) (fun x hx => hall x (List.mem_cons_of_mem h hx)), heq]

lemma keepHost_iff (members : List Member) (x : String) :
    keepHost members x = true ↔
      isIPv4 x = true ∧ ∀ m ∈ members, m.internalIP ≠ x := by
  unfold keepHost
  simp only [Bool.and_eq_true, Bool.not_eq_true', List.any_eq_false, beq_eq_false_iff_ne,
    beq_iff_eq]

lemma probeLoop_filter (oracle : String → Bool) (b : Nat) (hb : 1 ≤ b) :
    ∀ fuel ips, ips.length ≤ fuel → probeLoop oracle b fuel ips = ips.filter oracle := by
  intro fuel
  induction fuel with
  | zero =>
    intro ips h
    have hnil : ips = [] := List.eq_nil_of_length_eq_zero (by omega)
    subst hnil
    rfl
  | succ f ih =>
    intro ips h
    cases ips with
    | nil => rfl
    | cons ip rest =>
      show ((ip :: rest).take b).filter oracle ++
          probeLoop oracle b f ((ip :: rest).drop b) = _
      rw [ih ((ip :: rest).drop b) (by simp at h ⊢; omega)]
      rw [← List.filter_append, List.take_append_drop]

lemma dialTalosHosts_pos (oracle : String → Bool) (ips : List String) (bs : Int)
    (hbs : 0 < bs) : dialTalosHosts oracle ips bs = .ok (ips.filter oracle) none := by
  unfold dialTalosHosts
  rw [if_neg (by omega : ¬(bs ≤ 0 ∧ bs ≠ -1))]
  dsimp only
  rw [if_neg (by omega : bs ≠ -1)]
  rw [probeLoop_filter oracle bs.toNat (by omega) ips.length ips le_rfl]

lemma dialTalosHosts_neg_one (oracle : String → Bool) (ips : List String) :
    dialTalosHosts oracle ips (-1) = .ok (probeLoop oracle 100 ips.length ips) none := by
  unfold dialTalosHosts
  rw [if_neg (by omega : ¬((-1 : Int) ≤ 0 ∧ (-1 : Int) ≠ -1))]
  dsimp only
  rw [if_pos rfl]

lemma dialTalosHosts_fatal (oracle : String → Bool) (ips : List String) (bs : Int)
    (h1 : bs ≤ 0) (h2 : bs ≠ -1) :
    dialTalosHosts oracle ips bs = .fatal "batch size cannot be less than or equal to 0" := by
  unfold dialTalosHosts
  rw [if_pos ⟨h1, h2⟩]

/-- Per-range combination discipline stated by the spec: the results of the
individual ranges are concatenated in input order, and the first range that
does not produce an address list decides the whole call's outcome. -/
def concatRangeResults : List EnumResult → EnumResult
  | [] => .ok []
  | .ok l :: rest =>
    match concatRangeResults rest with
    | .ok ls => .ok (l ++ ls)
    | e => e
  | e :: _ => e

/-- The list carried by an ok enumeration result, and nil otherwise. -/
def EnumResult.ipsOrNil : EnumResult → List Nat
  | .ok l => l
  | _ => []

lemma ipsFromCIDRChars_ok_inv {cs : List Char} {l : List Nat}
    (h : ipsFromCIDRChars cs = .ok l) :
    ∃ net ips, parseCIDR cs = some net ∧ enumFrom net (2 ^ 32) net.network = some ips := by
  unfold ipsFromCIDRChars at h
  cases hp : parseCIDR cs with
  | none => rw [hp] at h; simp at h
  | some net =>
    rw [hp] at h
    dsimp only at h
    cases he : enumFrom net (2 ^ 32) net.network with
    | none => rw [he] at h; simp at h
    | some ips => exact ⟨net, ips, rfl, he⟩

lemma ipsFromCidrsChars_eq_concat :
    ∀ parts, ipsFromCidrsChars parts = concatRangeResults (parts.map ipsFromCIDRChars) := by
  intro parts
  induction parts with
  | nil => rfl
  | cons c rest ih =>
    cases hp : parseCIDR c with
    | none =>
      have hc : ipsFromCIDRChars c =
          .parseError ("invalid CIDR address: " ++ String.mk c) := by
        unfold ipsFromCIDRChars
        rw [hp]
      simp only [List.map_cons, ipsFromCidrsChars, hp, hc, concatRangeResults]
    | some net =>
      cases he : enumFrom net (2 ^ 32) net.network with
      | none =>
        have hc : ipsFromCIDRChars c = .diverges := by
          unfold ipsFromCIDRChars
          rw [hp]
          dsimp only
          rw [he]
        simp only [List.map_cons, ipsFromCidrsChars, hp, he, hc, concatRangeResults]
      | some ips =>
        have hc : ipsFromCIDRChars c =
            .ok (if 2 < ips.length then (ips.drop 1).dropLast else ips) := by
          unfold ipsFromCIDRChars
          rw [hp]
          dsimp only
          rw [he]
        simp only [List.map_cons, ipsFromCidrsChars, hp, he, hc, ih, concatRangeResults]

lemma ipsFromCIDRChars_diverges {cs : List Char} {net : IPNet}
    (hp : parseCIDR cs = some net)
    (he : enumFrom net (2 ^ 32) net.network = none) :
    ipsFromCIDRChars cs = .diverges := by
  unfold ipsFromCIDRChars
  rw [hp]
  dsimp only
  rw [he]

lemma ipsFromCidrsChars_cons_diverges {c : List Char} {net : IPNet}
    (rest : List (List Char)) (hp : parseCIDR c = some net)
    (he : enumFrom net (2 ^ 32) net.network = none) :
    ipsFromCidrsChars (c :: rest) = .diverges := by
  unfold ipsFromCidrsChars
  rw [hp]
  dsimp only
  rw [he]

lemma ipsFromCidrsChars_error :
    ∀ (pre : List (List Char)) (bad : List Char) (post : List (List Char)),
      parseCIDR bad = none →
      (∀ p ∈ pre, ∃ l, ipsFromCIDRChars p = .ok l) →
      ipsFromCidrsChars (pre ++ bad :: post) =
        .parseError ("invalid CIDR address: " ++ String.mk bad) := by
  intro pre
  induction pre with
  | nil =>
    intro bad post hbad _
    simp only [List.nil_append, ipsFromCidrsChars, hbad]
  | cons p pre' ih =>
    intro bad post hbad hall
    obtain ⟨l, hl⟩ := hall p (List.mem_cons_self _ _)
    obtain ⟨net, ips, hp, he⟩ := ipsFromCIDRChars_ok_inv hl
    have hrec : ipsFromCidrsChars (pre'.append (bad :: post)) =
        .parseError ("invalid CIDR address: " ++ String.mk bad) :=
      ih bad post hbad (fun q hq => hall q (List.mem_cons_of_mem _ hq))
    simp only [List.cons_append, ipsFromCidrsChars, hp, he, hrec]

lemma ipsFromCidrsChars_all_ok :
    ∀ parts, (∀ p ∈ parts, ∃ l, ipsFromCIDRChars p = .ok l) →
      ipsFromCidrsChars parts =
        .ok (parts.flatMap (fun p => (ipsFromCIDRChars p).ipsOrNil)) := by
  intro parts
  induction parts with
  | nil => intro _; rfl
  | cons p rest ih =>
    intro hall
    obtain ⟨l, hl⟩ := hall p (List.mem_cons_self _ _)
    obtain ⟨net, ips, hp, he⟩ := ipsFromCIDRChars_ok_inv hl
    have hrec := ih (fun q hq => hall q (List.mem_cons_of_mem _ hq))
    have hc : ipsFromCIDRChars p =
        .ok (if 2 < ips.length then (ips.drop 1).dropLast else ips) := by
      unfold ipsFromCIDRChars
      rw [hp]
      dsimp only
      rw [he]
    simp only [List.flatMap_cons, ipsFromCidrsChars, hp, he, hrec, hc, EnumResult.ipsOrNil]

lemma find?_append_first {α : Type} {p : α → Bool} :
    ∀ (pre : List α) (a : α) (post : List α), (∀ x ∈ pre, p x = false) → p a = true →
      (pre ++ a :: post).find? p = some a := by
  intro pre
  induction pre with
  | nil =>
    intro a post _ ha
    rw [List.nil_append]
    exact List.find?_cons_of_pos _ ha
  | cons x pre' ih =>
    intro a post hpre ha
    rw [List.cons_append,
      List.find?_cons_of_neg _ (by simp [hpre x (List.mem_cons_self _ _)])]
    exact ih a post (fun y hy => hpre y (List.mem_cons_of_mem _ hy)) ha

/-- C1: reconcile is a pure, order-preserving filter over the reachable
sequence: the output is a duplicate-free sublist of the input, and an
address is in the output exactly when it occurs in the input, passes the
IPv4 parse, and differs from every member's internal-address field; a
result that is empty because everything was skipped is still an ordinary
list, not an error. -/
theorem C1_reconcile_filter (reachable : List String) (members : List Member) :
    (reconcile reachable members).Sublist reachable ∧
    (reconcile reachable members).Nodup ∧
    ∀ x, x ∈ reconcile reachable members ↔
      x ∈ reachable ∧ isIPv4 x = true ∧ ∀ m ∈ members, m.internalIP ≠ x := by
  unfold reconcile
  obtain ⟨ex, heq, hsub, hnd⟩ := reconcile_fold_append members reachable []
  rw [List.nil_append] at heq
  refine ⟨by rw [heq]; exact hsub, by rw [heq]; simpa using hnd List.nodup_nil, ?_⟩
  intro x
  rw [reconcile_fold_mem members reachable [] x]
  simp only [List.not_mem_nil, false_or, keepHost_iff]

/-- C2 counterexample: the range 0.0.0.0/0 is accepted by the parser and
generates more than two addresses, yet enumeration on it produces no output
at all, because the generation loop never terminates. -/
theorem C2_counterexample :
    parseCIDR (String.toList "0.0.0.0/0") = some ⟨0, 0⟩ ∧
    2 < 2 ^ (32 - (0 : Nat)) ∧
    IpsFromCIDR "0.0.0.0/0" = EnumResult.diverges := by
  refine ⟨by decide, by norm_num, ?_⟩
  exact ipsFromCIDRChars_diverges (by decide)
    (enumFrom_ones_zero (2 ^ 32) 0 (by norm_num))

/-- C2 (amended): for every IPv4-style range accepted by the parser whose
prefix length is nonzero (so the generation loop terminates): if the range
has more than two addresses, enumerate returns exactly the addresses
strictly between the first (network) and last (broadcast) generated
addresses, in ascending order; if it has one or two addresses, enumerate
returns all generated addresses unmodified. -/
theorem C2_enumerate_boundaries (s : String) (net : IPNet)
    (hp : parseCIDR s.toList = some net) (hn1 : 1 ≤ net.ones) :
    (2 < 2 ^ (32 - net.ones) →
      IpsFromCIDR s =
        .ok ((List.range (2 ^ (32 - net.ones) - 2)).map (fun i => net.network + 1 + i)) ∧
      (∀ x, x ∈ (List.range (2 ^ (32 - net.ones) - 2)).map (fun i => net.network + 1 + i) ↔
        net.network < x ∧ x < net.network + (2 ^ (32 - net.ones) - 1)) ∧
      ((List.range (2 ^ (32 - net.ones) - 2)).map
        (fun i => net.network + 1 + i)).Pairwise (· < ·)) ∧
    (2 ^ (32 - net.ones) ≤ 2 →
      IpsFromCIDR s = .ok ((List.range (2 ^ (32 - net.ones))).map (fun i => net.network + i))) := by
  have hok := ipsFromCIDRChars_ok s.toList net hp hn1
  constructor
  · intro hsz
    refine ⟨?_, ?_, ?_⟩
    · unfold IpsFromCIDR
      rw [hok, if_pos hsz]
    · intro x
      simp only [List.mem_map, List.mem_range]
      constructor
      · rintro ⟨i, hi, rfl⟩
        omega
      · rintro ⟨h1, h2⟩
        exact ⟨x - net.network - 1, by omega, by omega⟩
    · exact (List.pairwise_lt_range _).map _ (fun a b hab => by omega)
  · intro hsz
    unfold IpsFromCIDR
    rw [hok, if_neg (by omega)]

/-- C2 witness: on 10.0.0.0/30 the enumerator returns the two addresses
strictly between network and broadcast. -/
theorem C2_enumerate_boundaries_witness :
    IpsFromCIDR "10.0.0.0/30" =
      .ok ((List.range (2 ^ (32 - (⟨167772160, 30⟩ : IPNet).ones) - 2)).map
        (fun i => (⟨167772160, 30⟩ : IPNet).network + 1 + i)) :=
  ((C2_enumerate_boundaries "10.0.0.0/30" ⟨167772160, 30⟩ (by decide)
    (by norm_num)).1 (by norm_num)).1

/-- C3 (code bug evidence): the parser accepts the range 0.0.0.0/0, but the
generation loop's guard holds at every address under the zero mask, so the
loop never exits and the enumeration diverges instead of producing a
non-empty strictly increasing sequence. -/
theorem C3_termination_fails :
    parseCIDR (String.toList "0.0.0.0/0") = some ⟨0, 0⟩ ∧
    (∀ fuel, enumFrom ⟨0, 0⟩ fuel 0 = none) ∧
    IpsFromCidrs "0.0.0.0/0" = EnumResult.diverges := by
  refine ⟨by decide, fun fuel => enumFrom_ones_zero fuel 0 (by norm_num), ?_⟩
  unfold IpsFromCidrs
  rw [show splitOnChar ',' (String.toList "0.0.0.0/0") = [String.toList "0.0.0.0/0"] from
    by decide]
  exact ipsFromCidrsChars_cons_diverges [] (by decide)
    (enumFrom_ones_zero (2 ^ 32) 0 (by norm_num))

/-- C4: for every fixed deterministic reachability oracle and every batch
size above zero, the prober returns exactly the input addresses the oracle
marks reachable (so the result is independent of the batch size), with a
nil error: per-address failures only omit the address and never abort the
batch or the call. -/
theorem C4_probe_oracle_filter (oracle : String → Bool) (ips : List String) (bs : Int)
    (hbs : 0 < bs) :
    dialTalosHosts oracle ips bs = .ok (ips.filter oracle) none :=
  dialTalosHosts_pos oracle ips bs hbs

/-- C4 witness: a concrete two-address probe at batch size one. -/
theorem C4_probe_oracle_filter_witness :
    dialTalosHosts (fun s => s == "10.0.0.1") ["10.0.0.1", "10.0.0.9"] 1 =
      .ok ((["10.0.0.1", "10.0.0.9"]).filter (fun s => s == "10.0.0.1")) none :=
  C4_probe_oracle_filter (fun s => s == "10.0.0.1") ["10.0.0.1", "10.0.0.9"] 1
    (by norm_num)

/-- C5: enumerating comma-joined ranges combines the individual ranges'
own results: the result equals the fail-fast concatenation of the per-range
results in input order; when every range yields a list the output is their
concatenation, and when some range fails to parse after ranges that yield
lists, the whole call returns only that range's parse error, naming the
offending range, with no partial output. -/
theorem C5_cidrs_concat_failfast (s : String) :
    (IpsFromCidrs s =
      concatRangeResults ((splitOnChar ',' s.toList).map ipsFromCIDRChars)) ∧
    ((∀ p ∈ splitOnChar ',' s.toList, ∃ l, ipsFromCIDRChars p = .ok l) →
      IpsFromCidrs s =
        .ok ((splitOnChar ',' s.toList).flatMap (fun p => (ipsFromCIDRChars p).ipsOrNil))) ∧
    (∀ pre bad post, splitOnChar ',' s.toList = pre ++ bad :: post →
      parseCIDR bad = none →
      (∀ p ∈ pre, ∃ l, ipsFromCIDRChars p = .ok l) →
      IpsFromCidrs s = .parseError ("invalid CIDR address: " ++ String.mk bad)) := by
  refine ⟨ipsFromCidrsChars_eq_concat _, fun hall => ipsFromCidrsChars_all_ok _ hall, ?_⟩
  intro pre bad post hsplit hbad hall
  unfold IpsFromCidrs
  rw [hsplit]
  exact ipsFromCidrsChars_error pre bad post hbad hall

/-- C5 witness: a good range followed by a malformed one aborts the whole
call with the error naming the malformed range. -/
theorem C5_cidrs_concat_failfast_witness :
    IpsFromCidrs "10.0.0.0/30,bad" =
      .parseError ("invalid CIDR address: " ++ String.mk (String.toList "bad")) := by
  apply (C5_cidrs_concat_failfast "10.0.0.0/30,bad").2.2
    [String.toList "10.0.0.0/30"] (String.toList "bad") []
  · decide
  · decide
  · intro p hp
    rw [List.mem_singleton] at hp
    subst hp
    exact ⟨_, ipsFromCIDRChars_ok _ ⟨167772160, 30⟩ (by decide) (by norm_num)⟩

/-- C6 counterexample: with batch size -5 the prober dies through log.Fatal
with a fixed message that does not mention -5; nothing is propagated to the
immediate caller as an error return. -/
theorem C6_counterexample :
    dialTalosHosts (fun _ => true) ["10.0.0.9"] (-5) =
      .fatal "batch size cannot be less than or equal to 0" := by decide

/-- C6 (amended): the -1 sentinel makes the prober behave identically to a
call with batch size 100; a zero or negative non-sentinel batch size makes
the process terminate through log.Fatal with the fixed message, before any
probe attempt (the outcome is the same for every oracle and address list)
and without returning an error to the caller or naming the value. -/
theorem C6_batch_size_policy (oracle : String → Bool) (ips : List String) (bs : Int) :
    (bs = -1 → dialTalosHosts oracle ips bs = dialTalosHosts oracle ips 100) ∧
    (bs ≤ 0 → bs ≠ -1 →
      dialTalosHosts oracle ips bs = .fatal "batch size cannot be less than or equal to 0") := by
  constructor
  · rintro rfl
    rw [dialTalosHosts_neg_one, dialTalosHosts_pos oracle ips 100 (by norm_num),
      probeLoop_filter oracle 100 (by norm_num) ips.length ips le_rfl]
  · exact dialTalosHosts_fatal oracle ips bs

/-- C6 witness: the sentinel and a negative non-sentinel value at concrete
inputs. -/
theorem C6_batch_size_policy_witness :
    (dialTalosHosts (fun _ => true) ["10.0.0.7"] (-1) =
      dialTalosHosts (fun _ => true) ["10.0.0.7"] 100) ∧
    (dialTalosHosts (fun _ => true) ["10.0.0.7"] (-7) =
      .fatal "batch size cannot be less than or equal to 0") :=
  ⟨(C6_batch_size_policy (fun _ => true) ["10.0.0.7"] (-1)).1 rfl,
   (C6_batch_size_policy (fun _ => true) ["10.0.0.7"] (-7)).2 (by norm_num) (by norm_num)⟩

/-- C7: reconcile is idempotent: reconciling an already-reconciled output
against the same member list returns it unchanged. -/
theorem C7_reconcile_idempotent (reachable : List String) (members : List Member) :
    reconcile (reconcile reachable members) members = reconcile reachable members := by
  unfold reconcile
  obtain ⟨ex, heq, hsub, hnd⟩ := reconcile_fold_append members reachable []
  rw [List.nil_append] at heq
  have hout_nodup : (reachable.foldl (reconcileStep members) []).Nodup := by
    rw [heq]
    simpa using hnd List.nodup_nil
  have hout_keep : ∀ x ∈ reachable.foldl (reconcileStep members) [],
      keepHost members x = true := by
    intro x hx
    rcases (reconcile_fold_mem members reachable [] x).mp hx with h | h
    · exact absurd h (List.not_mem_nil x)
    · exact h.2
  have hfix := reconcile_fold_fixed members (reachable.foldl (reconcileStep members) []) []
    (by simpa using hout_nodup) hout_keep
  simpa using hfix

/-- C9: extractInternalIP returns the first address of the member's list
that parses as IPv4; if no address parses as IPv4 but the list is nonempty,
its first address even though it is not IPv4; and the empty string for an
empty list — so the reconciler's member comparison may be against a
non-IPv4 string or the empty string. -/
theorem C9_extract_internal_ip (addrs : List String) :
    (∀ pre a post, addrs = pre ++ a :: post → (∀ x ∈ pre, isIPv4 x = false) →
      isIPv4 a = true → extractInternalIP addrs = a) ∧
    (∀ a rest, addrs = a :: rest → (∀ x ∈ addrs, isIPv4 x = false) →
      extractInternalIP addrs = a) ∧
    (addrs = [] → extractInternalIP addrs = "") := by
  refine ⟨?_, ?_, ?_⟩
  · rintro pre a post rfl hpre ha
    unfold extractInternalIP
    rw [find?_append_first pre a post hpre ha]
  · rintro a rest rfl hall
    unfold extractInternalIP
    rw [List.find?_eq_none.mpr (fun x hx => by simp [hall x hx])]
  · rintro rfl
    rfl

/-- C9 witness: a non-IPv4 address is skipped in favor of the first IPv4
address of the list. -/
theorem C9_extract_internal_ip_witness :
    extractInternalIP ["fe80::1", "10.0.0.5"] = "10.0.0.5" :=
  (C9_extract_internal_ip ["fe80::1", "10.0.0.5"]).1 ["fe80::1"] "10.0.0.5" []
    rfl (by decide) (by decide)

/-- C10: whenever the prober returns to its caller, the error component of
its result is nil: no failure is ever reported through the error return
value, for any address list and batch size. -/
theorem C10_error_always_nil (oracle : String → Bool) (ips : List String) (bs : Int)
    (hosts : List String) (err : Option String)
    (h : dialTalosHosts oracle ips bs = .ok hosts err) : err = none := by
  unfold dialTalosHosts at h
  by_cases hg : bs ≤ 0 ∧ bs ≠ -1
  · rw [if_pos hg] at h
    exact DialResult.noConfusion h
  · rw [if_neg hg] at h
    dsimp only at h
    injection h with h1 h2
    exact h2.symm

/-- C10 witness: a concrete returning call, reported with a nil error. -/
theorem C10_error_always_nil_witness : (none : Option String) = none :=
  C10_error_always_nil (fun _ => true) ["10.0.0.2"] 3 ["10.0.0.2"] none (by decide)

example : parseCIDR (String.toList "10.0.0.0/30") = some ⟨167772160, 30⟩ := by decide
example :
    ipsFromCIDRChars (String.toList "10.0.0.0/30") = .ok [167772161, 167772162] := by
  have h := ipsFromCIDRChars_ok (String.toList "10.0.0.0/30") ⟨167772160, 30⟩
    (by decide) (by norm_num)
  rw [h]
  norm_num
  decide
example : parseCIDR (String.toList "0.0.0.0/0") = some ⟨0, 0⟩ := by decide
example : parseCIDR (String.toList "10.0.0.7/24") = some ⟨167772160, 24⟩ := by decide
example : parseCIDR (String.toList "bad") = none := by decide
example : parseCIDR (String.toList "10.0.0.256/8") = none := by decide
example : parseCIDR (String.toList "10.0.0.0/33") = none := by decide
example : parseCIDR (String.toList "10.0.0.01/8") = none := by decide
example : isIPv4 "10.0.0.5" = true := by decide
example : isIPv4 "not-an-ip" = false := by decide
example : isIPv4 "fe80::1" = false := by decide
example : splitOnChar ',' (String.toList "a,b") = [['a'], ['b']] := by decide
example : splitOnChar ',' (String.toList ",") = [[], []] := by decide
example : nextIP [10, 0, 0, 255] = [10, 0, 1, 0] := by decide
example : nextIP [255, 255, 255, 255] = [0, 0, 0, 0] := by decide
example : extractInternalIP ["fe80::1", "10.0.0.5"] = "10.0.0.5" := by decide
example : extractInternalIP ["fe80::1", "bad"] = "fe80::1" := by decide
example : extractInternalIP [] = "" := by decide
example :
    reconcile ["10.0.0.5", "10.0.0.5", "not-an-ip"] [] = ["10.0.0.5"] := by decide
example :
    dialTalosHosts (fun s => s == "10.0.0.1") ["10.0.0.1", "10.0.0.2", "10.0.0.3"] 2 =
      .ok ["10.0.0.1"] none := by decide
example :
    dialTalosHosts (fun _ => true) ["a"] (-5) =
      .fatal "batch size cannot be less than or equal to 0" := by decide
example : dialTalosHosts (fun _ => true) ["a", "b"] (-1) = .ok ["a", "b"] none := by decide
